import Mathlib

/-!
Verification of the elastic-buffering core of `synth-processor.js`
(the `SynthProcessor` and `RingBufferWorkletProcessor` audio-worklet
processors) against its natural-language specification.

The `FreeQueue` ring buffer is imported by the source from
`../lib/ring-buffer.js`, which is not part of the sources at hand; its
behaviour is modelled from the specification (sections 3 and 4.1).  The
two processor classes themselves are embedded directly from
`synth-processor.js`.

Samples are modelled as integers: the claims under consideration are
about copying, ordering, zero-fill and frame accounting, none of which
depends on floating-point arithmetic.
-/

namespace WebAudio

/-- Modelled from the spec: the `FreeQueue` elastic frame buffer from
`ring-buffer.js` (not among the sources).  Spec section 3: "owns a fixed
set of per-channel sample arrays of capacity C ..., a write index, a
read index, and a count of frames currently held".  Per-channel storage
is a function from channel and slot to the sample stored there. -/
structure FreeQueue where
  capacity : Nat
  channelCount : Nat
  data : Nat → Nat → Int
  writeIndex : Nat
  readIndex : Nat
  count : Nat

namespace FreeQueue

/-- Modelled from the spec: `new FreeQueue(size, channelCount)` — a fresh
buffer of the given capacity and channel count, empty, all storage
zero-initialised, both indices at 0. -/
def new (capacity channelCount : Nat) : FreeQueue :=
  { capacity := capacity
    channelCount := channelCount
    data := fun _ _ => 0
    writeIndex := 0
    readIndex := 0
    count := 0 }

/-- Write one frame (one sample per channel) at slot `w % C`. -/
def writeFrame (C : Nat) (data : Nat → Nat → Int) (w : Nat)
    (frame : Nat → Int) : Nat → Nat → Int :=
  fun ch slot => if slot = w % C then frame ch else data ch slot

/-- Write `n` frames of `src` starting at slot `w`, wrapping modulo `C`
(frame `i` goes to slot `(w + i) % C`). -/
def writeBlock (C : Nat) (data : Nat → Nat → Int) (w : Nat)
    (src : Nat → Nat → Int) : Nat → (Nat → Nat → Int)
  | 0 => data
  | n + 1 => writeFrame C (writeBlock C data w src n) (w + n) (fun ch => src ch n)

/-- Modelled from the spec: `push(source, frameCount)` (spec 4.1) —
"copies `frameCount` frames from `source` ... into the buffer starting
at the current write position, advances the write position and count by
`frameCount`, wrapping indices modulo capacity".  On overflow the spec
allows silently dropping the overflow (drop-newest); the excess frames
beyond the free capacity `capacity - count` are dropped and storage
bounds are never exceeded. -/
def push (q : FreeQueue) (src : Nat → Nat → Int) (frameCount : Nat) : FreeQueue :=
  let n := min frameCount (q.capacity - q.count)
  { q with
    data := writeBlock q.capacity q.data q.writeIndex src n
    writeIndex := (q.writeIndex + n) % q.capacity
    count := q.count + n }

/-- Modelled from the spec: `pull(destination, frameCount)` (spec 4.1) —
"copies `frameCount` frames from the current read position into
`destination`, advances the read position and decrements count by
`frameCount`, wrapping modulo capacity.  If `frameCount > count`
(underrun), the destination must be filled with silence (zero) for the
missing frames".  Returns the advanced buffer together with the
destination contents, one list of `frameCount` samples per channel. -/
def pull (q : FreeQueue) (frameCount : Nat) : FreeQueue × List (List Int) :=
  let n := min frameCount q.count
  let dest := (List.range q.channelCount).map (fun ch =>
    (List.range frameCount).map (fun i =>
      if i < q.count then q.data ch ((q.readIndex + i) % q.capacity) else 0))
  ({ q with
      readIndex := (q.readIndex + n) % q.capacity
      count := q.count - n },
   dest)

/-- Modelled from the spec: `framesAvailable()` "returns `count`". -/
def framesAvailable (q : FreeQueue) : Nat := q.count

/-- Modelled from the spec: `isFrameAvailable(n)` — whether at least `n`
frames are held, i.e. `n ≤ count`; "used by the Adapter to decide
whether a kernel-sized block can be drained". -/
def isFrameAvailable (q : FreeQueue) (n : Nat) : Bool := decide (n ≤ q.count)

/-- Modelled from the spec: `getChannelData()` — the raw per-channel
backing array (used by `SynthProcessor` as a scratch buffer). -/
def getChannelData (q : FreeQueue) (ch : Nat) : List Int :=
  (List.range q.capacity).map (q.data ch)

/-- Well-formedness invariant (spec section 3): `0 ≤ count ≤ C`, indices
taken modulo C, and the write index sits `count` frames past the read
index. -/
def WF (q : FreeQueue) : Prop :=
  0 < q.capacity ∧ q.count ≤ q.capacity ∧ q.readIndex < q.capacity ∧
    q.writeIndex = (q.readIndex + q.count) % q.capacity

instance (q : FreeQueue) : Decidable q.WF := by
  unfold WF; infer_instance

/-- The abstract FIFO contents of one channel: the `count` samples from
the read position onwards, wrapping modulo capacity. -/
def contents (q : FreeQueue) (ch : Nat) : List Int :=
  (List.range q.count).map (fun i => q.data ch ((q.readIndex + i) % q.capacity))

end FreeQueue

/-- Slots `(w + i) % C` for `i < C` are pairwise distinct: adding distinct
offsets below the capacity to a common base yields distinct slots modulo
the capacity. -/
theorem mod_add_inj {C : Nat} (hC : 0 < C) {w i j : Nat} (hi : i < C) (hj : j < C)
    (h : (w + i) % C = (w + j) % C) : i = j := by
  rcases Nat.le_total i j with hle | hle
  · have hmod : Nat.ModEq C (w + i) (w + j) := h
    have hdvd : C ∣ (w + j) - (w + i) := (Nat.modEq_iff_dvd' (by omega)).mp hmod
    have heq : (w + j) - (w + i) = j - i := by omega
    rw [heq] at hdvd
    have := Nat.eq_zero_of_dvd_of_lt hdvd (by omega)
    omega
  · have hmod : Nat.ModEq C (w + j) (w + i) := h.symm
    have hdvd : C ∣ (w + i) - (w + j) := (Nat.modEq_iff_dvd' (by omega)).mp hmod
    have heq : (w + i) - (w + j) = i - j := by omega
    rw [heq] at hdvd
    have := Nat.eq_zero_of_dvd_of_lt hdvd (by omega)
    omega

namespace FreeQueue

/-- A slot hit by none of the `n` writes of a block keeps its old sample. -/
theorem writeBlock_not_written (C : Nat) (data : Nat → Nat → Int) (w : Nat)
    (src : Nat → Nat → Int) (n : Nat) (ch slot : Nat)
    (h : ∀ i, i < n → slot ≠ (w + i) % C) :
    writeBlock C data w src n ch slot = data ch slot := by
  induction n with
  | zero => rfl
  | succ n ih =>
    show writeFrame C (writeBlock C data w src n) (w + n) (fun c => src c n) ch slot
      = data ch slot
    unfold writeFrame
    rw [if_neg (h n (by omega))]
    exact ih (fun i hi => h i (by omega))

/-- Writing a block of at most `C` frames puts frame `j` of the source at
slot `(w + j) % C`. -/
theorem writeBlock_written (C : Nat) (hC : 0 < C) (data : Nat → Nat → Int)
    (w : Nat) (src : Nat → Nat → Int) (n : Nat) (hn : n ≤ C)
    (ch j : Nat) (hj : j < n) :
    writeBlock C data w src n ch ((w + j) % C) = src ch j := by
  induction n with
  | zero => omega
  | succ n ih =>
    show writeFrame C (writeBlock C data w src n) (w + n) (fun c => src c n) ch
        ((w + j) % C) = src ch j
    unfold writeFrame
    by_cases hjn : j = n
    · subst hjn
      rw [if_pos rfl]
    · rw [if_neg, ih (by omega) (by omega)]
      intro heq
      exact hjn (mod_add_inj hC (by omega) (by omega) heq)

/-- A push that fits in the free capacity preserves well-formedness and
the scalar fields, increments the count, and appends the pushed frames
to every channel's FIFO contents. -/
theorem push_spec (q : FreeQueue) (src : Nat → Nat → Int) (n : Nat)
    (hWF : q.WF) (hfit : q.count + n ≤ q.capacity) :
    (q.push src n).WF ∧ (q.push src n).count = q.count + n ∧
    (q.push src n).readIndex = q.readIndex ∧
    (q.push src n).capacity = q.capacity ∧
    (q.push src n).channelCount = q.channelCount ∧
    ∀ ch, (q.push src n).contents ch =
      q.contents ch ++ (List.range n).map (src ch) := by
  obtain ⟨hC, hcnt, hr, hw⟩ := hWF
  have hmin : min n (q.capacity - q.count) = n := Nat.min_eq_left (by omega)
  have hfields : (q.push src n).count = q.count + n ∧
      (q.push src n).readIndex = q.readIndex ∧
      (q.push src n).capacity = q.capacity ∧
      (q.push src n).channelCount = q.channelCount ∧
      (q.push src n).writeIndex = (q.writeIndex + n) % q.capacity ∧
      (q.push src n).data = writeBlock q.capacity q.data q.writeIndex src n := by
    unfold push
    rw [hmin]
    exact ⟨rfl, rfl, rfl, rfl, rfl, rfl⟩
  obtain ⟨hcount, hread, hcap, hchan, hwrite, hdata⟩ := hfields
  refine ⟨⟨?_, ?_, ?_, ?_⟩, hcount, hread, hcap, hchan, ?_⟩
  · rw [hcap]; exact hC
  · rw [hcount, hcap]; exact hfit
  · rw [hread, hcap]; exact hr
  · rw [hwrite, hread, hcount, hcap, hw, Nat.mod_add_mod, Nat.add_assoc]
  · intro ch
    unfold contents
    rw [hcount, hread, hcap, hdata, List.range_add, List.map_append, List.map_map]
    congr 1
    · apply List.map_congr_left
      intro i hi
      have hi' : i < q.count := List.mem_range.mp hi
      apply writeBlock_not_written
      intro k hk hslot
      rw [hw, Nat.mod_add_mod] at hslot
      have : i = q.count + k := mod_add_inj hC (by omega) (by omega)
        (by rw [hslot, Nat.add_assoc])
      omega
    · apply List.map_congr_left
      intro j hj
      have hj' : j < n := List.mem_range.mp hj
      show writeBlock q.capacity q.data q.writeIndex src n ch
        ((q.readIndex + (q.count + j)) % q.capacity) = src ch j
      have hslot : (q.readIndex + (q.count + j)) % q.capacity
          = (q.writeIndex + j) % q.capacity := by
        rw [hw, Nat.mod_add_mod, Nat.add_assoc]
      rw [hslot]
      exact writeBlock_written q.capacity hC q.data q.writeIndex src n
        (by omega) ch j hj'

/-- Pulling exactly the held count returns every channel's FIFO contents
verbatim. -/
theorem pull_dest_exact (q : FreeQueue) :
    (q.pull q.count).2 = (List.range q.channelCount).map q.contents := by
  unfold pull contents
  apply List.map_congr_left
  intro ch _
  apply List.map_congr_left
  intro i hi
  rw [if_pos (List.mem_range.mp hi)]

/-- Pulling more than the held count returns every channel's FIFO
contents followed by zeros (silence) for the missing frames. -/
theorem pull_dest_underrun (q : FreeQueue) (n : Nat) (hlt : q.count < n) :
    (q.pull n).2 = (List.range q.channelCount).map
      (fun ch => q.contents ch ++ List.replicate (n - q.count) 0) := by
  unfold pull contents
  apply List.map_congr_left
  intro ch _
  rw [show n = q.count + (n - q.count) by omega, List.range_add,
    List.map_append, List.map_map]
  congr 1
  · apply List.map_congr_left
    intro i hi
    rw [if_pos (List.mem_range.mp hi)]
  · have : ∀ j ∈ List.range (n - q.count),
        ((fun i => if i < q.count then q.data ch ((q.readIndex + i) % q.capacity)
          else 0) ∘ (fun x => q.count + x)) j = (fun _ => (0 : Int)) j := by
      intro j _
      show (if q.count + j < q.count then _ else (0 : Int)) = 0
      rw [if_neg (by omega)]
    rw [List.map_congr_left this, List.map_const', List.length_range]
    congr 1
    omega

/-- A sequence of pushes, performed in order. -/
def pushAll (q : FreeQueue) : List ((Nat → Nat → Int) × Nat) → FreeQueue
  | [] => q
  | b :: rest => pushAll (q.push b.1 b.2) rest

/-- A sequence of pushes whose cumulative frame count fits in the free
capacity preserves well-formedness, adds the cumulative count, and
appends all pushed frames in order to every channel's FIFO contents. -/
theorem pushAll_spec (blocks : List ((Nat → Nat → Int) × Nat)) :
    ∀ (q : FreeQueue), q.WF →
    q.count + (blocks.map (fun b => b.2)).sum ≤ q.capacity →
    (pushAll q blocks).WF ∧
    (pushAll q blocks).count = q.count + (blocks.map (fun b => b.2)).sum ∧
    (pushAll q blocks).channelCount = q.channelCount ∧
    ∀ ch, (pushAll q blocks).contents ch =
      q.contents ch ++
        (blocks.map (fun b => (List.range b.2).map (fun i => b.1 ch i))).flatten := by
  induction blocks with
  | nil =>
    intro q hWF _
    exact ⟨hWF, by simp [pushAll], rfl, fun ch => by simp [pushAll]⟩
  | cons b rest ih =>
    intro q hWF hsum
    simp only [List.map_cons, List.sum_cons] at hsum
    have hfit : q.count + b.2 ≤ q.capacity := by omega
    obtain ⟨hWF1, hcount1, hread1, hcap1, hchan1, hcont1⟩ :=
      push_spec q b.1 b.2 hWF hfit
    have hstep : pushAll q (b :: rest) = pushAll (q.push b.1 b.2) rest := rfl
    have hsum2 : (q.push b.1 b.2).count + (rest.map (fun b => b.2)).sum
        ≤ (q.push b.1 b.2).capacity := by
      rw [hcount1, hcap1]; omega
    obtain ⟨hWF2, hcount2, hchan2, hcont2⟩ := ih (q.push b.1 b.2) hWF1 hsum2
    refine ⟨hstep ▸ hWF2, ?_, ?_, ?_⟩
    · rw [hstep, hcount2, hcount1]
      simp only [List.map_cons, List.sum_cons]
      omega
    · rw [hstep, hchan2, hchan1]
    · intro ch
      rw [hstep, hcont2 ch, hcont1 ch]
      simp only [List.map_cons, List.flatten_cons, List.append_assoc]

end FreeQueue

open FreeQueue in
/-- C1: for every sequence of FreeQueue push operations whose cumulative
frame count does not exceed the capacity of a fresh buffer, pulling the
same total number of frames returns exactly the pushed frames, in push
order, for every channel (lossless FIFO round-trip). -/
theorem freeQueue_push_pull_fifo (C nch : Nat) (hC : 0 < C)
    (blocks : List ((Nat → Nat → Int) × Nat))
    (hsum : (blocks.map (fun b => b.2)).sum ≤ C) :
    ((pushAll (FreeQueue.new C nch) blocks).pull
        ((blocks.map (fun b => b.2)).sum)).2 =
      (List.range nch).map (fun ch =>
        (blocks.map (fun b => (List.range b.2).map (fun i => b.1 ch i))).flatten) := by
  have hWF0 : (FreeQueue.new C nch).WF :=
    ⟨hC, Nat.zero_le _, hC, by simp [FreeQueue.new]⟩
  have hsum0 : (FreeQueue.new C nch).count + (blocks.map (fun b => b.2)).sum
      ≤ (FreeQueue.new C nch).capacity := by
    simp only [FreeQueue.new]; omega
  obtain ⟨hWF, hcount, hchan, hcont⟩ := pushAll_spec blocks _ hWF0 hsum0
  have hsum_eq : (blocks.map (fun b => b.2)).sum
      = (pushAll (FreeQueue.new C nch) blocks).count := by
    rw [hcount]; simp only [FreeQueue.new]; omega
  rw [hsum_eq, pull_dest_exact, hchan]
  show (List.range nch).map _ = _
  apply List.map_congr_left
  intro ch _
  rw [hcont ch]
  rfl

/-- Concrete blocks for the C1 witness: two channels, a 2-frame block
followed by a 1-frame block. -/
def fifoBlocksW : List ((Nat → Nat → Int) × Nat) :=
  [(fun ch i => 10 * ((ch : Int) + 1) + (i : Int), 2), (fun _ i => 100 + (i : Int), 1)]

open FreeQueue in
/-- Witness for C1 at capacity 4, two channels, blocks of sizes 2 and 1. -/
theorem freeQueue_push_pull_fifo_witness :
    (0 : Nat) < 4 ∧ (fifoBlocksW.map (fun b => b.2)).sum ≤ 4 ∧
    ((pushAll (FreeQueue.new 4 2) fifoBlocksW).pull
        ((fifoBlocksW.map (fun b => b.2)).sum)).2 =
      (List.range 2).map (fun ch =>
        (fifoBlocksW.map (fun b => (List.range b.2).map (fun i => b.1 ch i))).flatten) :=
  ⟨by decide, by decide,
    freeQueue_push_pull_fifo 4 2 (by decide) fifoBlocksW (by decide)⟩

open FreeQueue in
/-- C2: pulling more frames than are currently held returns, for every
channel, the held frames verbatim followed by zeros (silence) for the
missing frames, and every destination channel receives exactly
`frameCount` samples — never stale or uninitialized data. -/
theorem freeQueue_pull_underrun_silence (q : FreeQueue) (n : Nat)
    (hlt : q.count < n) :
    (q.pull n).2 = (List.range q.channelCount).map
      (fun ch => q.contents ch ++ List.replicate (n - q.count) 0) ∧
    ∀ l ∈ (q.pull n).2, l.length = n := by
  have hdest := pull_dest_underrun q n hlt
  refine ⟨hdest, ?_⟩
  intro l hl
  rw [hdest] at hl
  obtain ⟨ch, _, rfl⟩ := List.mem_map.mp hl
  simp only [List.length_append, List.length_replicate, contents,
    List.length_map, List.length_range]
  omega

open FreeQueue in
/-- Witness for C2: two frames held in a capacity-3 mono buffer, pulling
four frames. -/
theorem freeQueue_pull_underrun_silence_witness :
    (((FreeQueue.new 3 1).push (fun _ i => (i : Int) + 5) 2).count < 4) ∧
    ((((FreeQueue.new 3 1).push (fun _ i => (i : Int) + 5) 2).pull 4).2 =
      (List.range 1).map (fun ch =>
        ((FreeQueue.new 3 1).push (fun _ i => (i : Int) + 5) 2).contents ch ++
          List.replicate (4 - ((FreeQueue.new 3 1).push (fun _ i => (i : Int) + 5) 2).count) 0) ∧
    ∀ l ∈ (((FreeQueue.new 3 1).push (fun _ i => (i : Int) + 5) 2).pull 4).2,
      l.length = 4) :=
  ⟨by decide,
    freeQueue_pull_underrun_silence ((FreeQueue.new 3 1).push (fun _ i => (i : Int) + 5) 2)
      4 (by decide)⟩

/-- One FreeQueue operation: a push of a source block, or a pull. -/
inductive QOp where
  | pushOp (src : Nat → Nat → Int) (frameCount : Nat)
  | pullOp (frameCount : Nat)

/-- Apply one operation to a buffer (a pull discards its destination). -/
def applyOp (q : FreeQueue) : QOp → FreeQueue
  | QOp.pushOp src n => q.push src n
  | QOp.pullOp n => (q.pull n).1

/-- Apply a sequence of operations in order. -/
def applyOps (q : FreeQueue) : List QOp → FreeQueue
  | [] => q
  | op :: rest => applyOps (applyOp q op) rest

/-- Total number of frames pushed by a sequence of operations. -/
def totalPush : List QOp → Nat
  | [] => 0
  | QOp.pushOp _ n :: rest => n + totalPush rest
  | QOp.pullOp _ :: rest => totalPush rest

/-- Total number of frames pulled by a sequence of operations. -/
def totalPull : List QOp → Nat
  | [] => 0
  | QOp.pushOp _ _ :: rest => totalPull rest
  | QOp.pullOp n :: rest => n + totalPull rest

/-- Whether every operation in the sequence is clamping-free when run
from the given state: each push fits in the free capacity and each pull
finds enough held frames. -/
def validOps (q : FreeQueue) : List QOp → Bool
  | [] => true
  | op :: rest =>
    (match op with
     | QOp.pushOp _ n => decide (q.count + n ≤ q.capacity)
     | QOp.pullOp n => decide (n ≤ q.count)) && validOps (applyOp q op) rest

/-- Any operation keeps the count within capacity and preserves the
capacity itself. -/
theorem applyOp_le (q : FreeQueue) (op : QOp) (h : q.count ≤ q.capacity) :
    (applyOp q op).count ≤ (applyOp q op).capacity ∧
    (applyOp q op).capacity = q.capacity := by
  cases op with
  | pushOp src n =>
    show (q.push src n).count ≤ (q.push src n).capacity ∧
      (q.push src n).capacity = q.capacity
    unfold FreeQueue.push
    refine ⟨?_, rfl⟩
    show q.count + min n (q.capacity - q.count) ≤ q.capacity
    have := Nat.min_le_right n (q.capacity - q.count)
    omega
  | pullOp n =>
    show ((q.pull n).1.count ≤ (q.pull n).1.capacity) ∧ (q.pull n).1.capacity = q.capacity
    unfold FreeQueue.pull
    refine ⟨?_, rfl⟩
    show q.count - min n q.count ≤ q.capacity
    omega

/-- Clamping-free operation sequences account exactly: the final count
plus the total pulled equals the initial count plus the total pushed. -/
theorem applyOps_count (ops : List QOp) : ∀ (q : FreeQueue),
    validOps q ops = true →
    (applyOps q ops).count + totalPull ops = q.count + totalPush ops := by
  induction ops with
  | nil => intro q _; simp [applyOps, totalPush, totalPull]
  | cons op rest ih =>
    intro q hvalid
    unfold validOps at hvalid
    rw [Bool.and_eq_true] at hvalid
    obtain ⟨hop, hrest⟩ := hvalid
    have hstep : applyOps q (op :: rest) = applyOps (applyOp q op) rest := rfl
    have ihr := ih (applyOp q op) hrest
    cases op with
    | pushOp src n =>
      have hfit : q.count + n ≤ q.capacity := by
        simpa using hop
      have hcount : (applyOp q (QOp.pushOp src n)).count = q.count + n := by
        show (q.push src n).count = q.count + n
        unfold FreeQueue.push
        show q.count + min n (q.capacity - q.count) = q.count + n
        rw [Nat.min_eq_left (by omega)]
      rw [hstep]
      rw [hcount] at ihr
      simp only [totalPush, totalPull] at ihr ⊢
      omega
    | pullOp n =>
      have hen : n ≤ q.count := by simpa using hop
      have hcount : (applyOp q (QOp.pullOp n)).count = q.count - n := by
        show (q.pull n).1.count = q.count - n
        unfold FreeQueue.pull
        show q.count - min n q.count = q.count - n
        rw [Nat.min_eq_left hen]
      rw [hstep]
      rw [hcount] at ihr
      simp only [totalPush, totalPull] at ihr ⊢
      omega

/-- Counts never exceed capacity along any operation sequence. -/
theorem applyOps_le (ops : List QOp) : ∀ (q : FreeQueue),
    q.count ≤ q.capacity →
    (applyOps q ops).count ≤ (applyOps q ops).capacity ∧
    (applyOps q ops).capacity = q.capacity := by
  induction ops with
  | nil => intro q h; exact ⟨h, rfl⟩
  | cons op rest ih =>
    intro q h
    have hstep : applyOps q (op :: rest) = applyOps (applyOp q op) rest := rfl
    obtain ⟨h1, h2⟩ := applyOp_le q op h
    obtain ⟨h3, h4⟩ := ih (applyOp q op) h1
    exact ⟨hstep ▸ h3, by rw [hstep, h4, h2]⟩

namespace FreeQueue

/-- Under the well-formedness invariant, pushing a zero-length block is
a no-op (the state is unchanged). -/
theorem push_zero_noop (q : FreeQueue) (src : Nat → Nat → Int) (hWF : q.WF) :
    q.push src 0 = q := by
  obtain ⟨hC, hcnt, hr, hw⟩ := hWF
  have hwlt : q.writeIndex < q.capacity := by
    rw [hw]; exact Nat.mod_lt _ hC
  simp only [push, Nat.min_eq_left (Nat.zero_le (q.capacity - q.count))]
  rw [show (q.writeIndex + 0) % q.capacity = q.writeIndex by
    rw [Nat.add_zero, Nat.mod_eq_of_lt hwlt]]
  rfl

/-- Under the well-formedness invariant, pulling a zero-length block
leaves the state unchanged. -/
theorem pull_zero_noop (q : FreeQueue) (hWF : q.WF) : (q.pull 0).1 = q := by
  obtain ⟨hC, hcnt, hr, hw⟩ := hWF
  simp only [pull, Nat.min_eq_left (Nat.zero_le q.count)]
  rw [show (q.readIndex + 0) % q.capacity = q.readIndex by
    rw [Nat.add_zero, Nat.mod_eq_of_lt hr]]
  rfl

end FreeQueue

open FreeQueue in
/-- C7 (amended): for every interleaving of N pushes of size P and M
pulls of size Q, from a fresh buffer, in which no individual operation
overflows or underruns, `framesAvailable()` afterwards equals
N·P − M·Q (stated additively), and this value lies within
[0, capacity] so the clamp in the original claim is vacuous; pushing or
pulling a zero-length block leaves a well-formed buffer unchanged. -/
theorem freeQueue_frames_accounting (C nch : Nat) (ops : List QOp)
    (N P M Q : Nat) (hN : totalPush ops = N * P) (hM : totalPull ops = M * Q)
    (hvalid : validOps (FreeQueue.new C nch) ops = true) :
    (applyOps (FreeQueue.new C nch) ops).framesAvailable + M * Q = N * P ∧
    (applyOps (FreeQueue.new C nch) ops).framesAvailable ≤ C ∧
    (∀ (q : FreeQueue) (src : Nat → Nat → Int), q.WF →
      q.push src 0 = q ∧ (q.pull 0).1 = q) := by
  have hacc := applyOps_count ops (FreeQueue.new C nch) hvalid
  have hle := applyOps_le ops (FreeQueue.new C nch) (Nat.zero_le _)
  refine ⟨?_, ?_, fun q src hWF => ⟨push_zero_noop q src hWF, pull_zero_noop q hWF⟩⟩
  · show (applyOps (FreeQueue.new C nch) ops).count + M * Q = N * P
    rw [← hN, ← hM]
    simpa [FreeQueue.new] using hacc
  · show (applyOps (FreeQueue.new C nch) ops).count ≤ C
    obtain ⟨h1, h2⟩ := hle
    rw [h2] at h1
    exact h1

open FreeQueue in
/-- Witness for C7 (amended) at capacity 4, one channel, with the
interleaving push 3, pull 2, push 2, pull 1 (N·P = 5 via N = 5, P = 1;
M·Q = 3 via M = 3, Q = 1): two frames remain. -/
theorem freeQueue_frames_accounting_witness :
    totalPush [QOp.pushOp (fun _ _ => 1) 3, QOp.pullOp 2,
      QOp.pushOp (fun _ _ => 2) 2, QOp.pullOp 1] = 5 * 1 ∧
    totalPull [QOp.pushOp (fun _ _ => 1) 3, QOp.pullOp 2,
      QOp.pushOp (fun _ _ => 2) 2, QOp.pullOp 1] = 3 * 1 ∧
    validOps (FreeQueue.new 4 1) [QOp.pushOp (fun _ _ => 1) 3, QOp.pullOp 2,
      QOp.pushOp (fun _ _ => 2) 2, QOp.pullOp 1] = true ∧
    ((applyOps (FreeQueue.new 4 1) [QOp.pushOp (fun _ _ => 1) 3, QOp.pullOp 2,
        QOp.pushOp (fun _ _ => 2) 2, QOp.pullOp 1]).framesAvailable + 3 * 1 = 5 * 1 ∧
    (applyOps (FreeQueue.new 4 1) [QOp.pushOp (fun _ _ => 1) 3, QOp.pullOp 2,
        QOp.pushOp (fun _ _ => 2) 2, QOp.pullOp 1]).framesAvailable ≤ 4 ∧
    (∀ (q : FreeQueue) (src : Nat → Nat → Int), q.WF →
      q.push src 0 = q ∧ (q.pull 0).1 = q)) :=
  ⟨by decide, by decide, by decide,
    freeQueue_frames_accounting 4 1 _ 5 1 3 1 (by decide) (by decide) (by decide)⟩

/-- C7 counterexample: the claim as stated fails for the interleaving
that pulls before pushing.  On an empty capacity-4 mono buffer, one pull
of 3 (an underrun no-op) followed by one push of 3 leaves 3 frames
available, while N·P − M·Q = 1·3 − 1·3 clamped to [0, 4] is 0. -/
theorem freeQueue_frames_accounting_cex :
    ¬ ((applyOps (FreeQueue.new 4 1)
          [QOp.pullOp 3, QOp.pushOp (fun _ _ => 7) 3]).framesAvailable
        = min (1 * 3 - 1 * 3) 4) := by decide

namespace FreeQueue

/-- A push that fits in the free capacity adds exactly its frame count. -/
theorem push_count_le (q : FreeQueue) (src : Nat → Nat → Int) (n : Nat)
    (h : q.count + n ≤ q.capacity) : (q.push src n).count = q.count + n := by
  unfold push
  show q.count + min n (q.capacity - q.count) = q.count + n
  rw [Nat.min_eq_left (by omega)]

/-- A push never changes the capacity. -/
theorem push_capacity (q : FreeQueue) (src : Nat → Nat → Int) (n : Nat) :
    (q.push src n).capacity = q.capacity := rfl

/-- A pull of at most the held count removes exactly its frame count. -/
theorem pull_count_le (q : FreeQueue) (n : Nat) (h : n ≤ q.count) :
    (q.pull n).1.count = q.count - n := by
  unfold pull
  show q.count - min n q.count = q.count - n
  rw [Nat.min_eq_left h]

/-- A pull never changes the capacity. -/
theorem pull_capacity (q : FreeQueue) (n : Nat) :
    (q.pull n).1.capacity = q.capacity := rfl

end FreeQueue

/-- View a pulled multi-channel destination as a block function
(out-of-range reads give 0), as handed to the processing kernel. -/
def blockOf (l : List (List Int)) : Nat → Nat → Int :=
  fun ch i => (l.getD ch []).getD i 0

/-- The `RingBufferWorkletProcessor` state (constructor, lines 80–98):
the kernel buffer size and channel count from `processorOptions`, and
the single shared `FreeQueue` of capacity `kernelBufferSize`. -/
structure RingBufferWorkletProcessor where
  kernelBufferSize : Nat
  channelCount : Nat
  buffer : FreeQueue

namespace RingBufferWorkletProcessor

/-- Constructor (line 87): `new FreeQueue(kernelBufferSize, channelCount)`. -/
def new (kernelBufferSize channelCount : Nat) : RingBufferWorkletProcessor :=
  { kernelBufferSize := kernelBufferSize
    channelCount := channelCount
    buffer := FreeQueue.new kernelBufferSize channelCount }

/-- The host-block push of line 116:
`this._buffer.push(input, this._kernelBufferSize)` — note the frame
count passed is `kernelBufferSize`, not the 128-frame host cycle size. -/
def hostPush (p : RingBufferWorkletProcessor) (input : Nat → Nat → Int) : FreeQueue :=
  p.buffer.push input p.kernelBufferSize

end RingBufferWorkletProcessor

/-- Result of one kernel-drain step (the conditional of lines 119–132). -/
structure DrainResult where
  buffer : FreeQueue
  kernelInvocations : Nat
  pulledFrameCounts : List Nat
  pushedFrameCounts : List Nat

/-- The kernel-drain step of lines 119–132: `if` (not `while`) at least
`kernelBufferSize` frames are available, pull `kernelBufferSize` frames,
run the kernel once on them, and push the kernel's output block back
into the same buffer.  The result also records the kernel invocation
count and the pull/push frame counts performed. -/
def drainStep (K : Nat) (kernel : (Nat → Nat → Int) → (Nat → Nat → Int))
    (b : FreeQueue) : DrainResult :=
  if b.isFrameAvailable K then
    let pulled := b.pull K
    let heapOut := kernel (blockOf pulled.2)
    { buffer := pulled.1.push heapOut K
      kernelInvocations := 1
      pulledFrameCounts := [K]
      pushedFrameCounts := [K] }
  else
    { buffer := b
      kernelInvocations := 0
      pulledFrameCounts := []
      pushedFrameCounts := [] }

/-- Result of one `RingBufferWorkletProcessor.process` call: the new
state, the host output block, the returned keep-alive flag, and the
observable frame traffic of the call. -/
structure ProcessResult where
  state : RingBufferWorkletProcessor
  output : List (List Int)
  keepAlive : Bool
  kernelInvocations : Nat
  pushedFrameCounts : List Nat
  pulledFrameCounts : List Nat

namespace RingBufferWorkletProcessor

/-- `process` (lines 107–148): push the host input block with frame
count `kernelBufferSize` (line 116), run the kernel-drain conditional
(lines 119–132), pull `kernelBufferSize` frames into the host output
(line 145), and return `true` (line 147).  The kernel is the opaque
WASM `VariableBufferKernel`, modelled as a block transform. -/
def process (p : RingBufferWorkletProcessor)
    (kernel : (Nat → Nat → Int) → (Nat → Nat → Int))
    (input : Nat → Nat → Int) : ProcessResult :=
  let b1 := p.hostPush input
  let dk := drainStep p.kernelBufferSize kernel b1
  let fin := dk.buffer.pull p.kernelBufferSize
  { state := { p with buffer := fin.1 }
    output := fin.2
    keepAlive := true
    kernelInvocations := dk.kernelInvocations
    pushedFrameCounts := p.kernelBufferSize :: dk.pushedFrameCounts
    pulledFrameCounts := dk.pulledFrameCounts ++ [p.kernelBufferSize] }

/-- Iterate `process` for a number of host cycles with a fixed kernel
and input block, returning the final state and the total number of
kernel invocations. -/
def runCycles (p : RingBufferWorkletProcessor)
    (kernel : (Nat → Nat → Int) → (Nat → Nat → Int))
    (input : Nat → Nat → Int) : Nat → RingBufferWorkletProcessor × Nat
  | 0 => (p, 0)
  | n + 1 =>
    let prev := runCycles p kernel input n
    let r := prev.1.process kernel input
    (r.state, prev.2 + r.kernelInvocations)

end RingBufferWorkletProcessor

/-- The kernel-drain step preserves the frame count (it pulls K and
pushes the K kernel-output frames back into the same buffer), preserves
the capacity, and invokes the kernel exactly once when at least K frames
are available and zero times otherwise. -/
theorem drainStep_spec (K : Nat) (kernel : (Nat → Nat → Int) → (Nat → Nat → Int))
    (b : FreeQueue) (h : b.count ≤ b.capacity) :
    (drainStep K kernel b).buffer.count = b.count ∧
    (drainStep K kernel b).buffer.capacity = b.capacity ∧
    (drainStep K kernel b).kernelInvocations = (if K ≤ b.count then 1 else 0) ∧
    (drainStep K kernel b).pulledFrameCounts = (if K ≤ b.count then [K] else []) ∧
    (drainStep K kernel b).pushedFrameCounts = (if K ≤ b.count then [K] else []) := by
  by_cases hK : K ≤ b.count
  · have hcond : b.isFrameAvailable K = true := by
      simp only [FreeQueue.isFrameAvailable, decide_eq_true_eq]
      exact hK
    have hpullc : (b.pull K).1.count = b.count - K := FreeQueue.pull_count_le b K hK
    have hpullcap : (b.pull K).1.capacity = b.capacity := FreeQueue.pull_capacity b K
    have hpushc : ((b.pull K).1.push (kernel (blockOf (b.pull K).2)) K).count
        = (b.pull K).1.count + K :=
      FreeQueue.push_count_le _ _ _ (by rw [hpullc, hpullcap]; omega)
    simp only [drainStep, hcond, if_true, if_pos hK]
    refine ⟨?_, ?_, ?_, ?_, ?_⟩
    · rw [hpushc, hpullc]; omega
    · rw [FreeQueue.push_capacity, hpullcap]
    · trivial
    · trivial
    · trivial
  · have hcond : b.isFrameAvailable K = false := by
      simp only [FreeQueue.isFrameAvailable, decide_eq_false_iff_not]
      exact hK
    simp only [drainStep, hcond, Bool.false_eq_true, if_false, if_neg hK]
    refine ⟨?_, ?_, ?_, ?_, ?_⟩ <;> trivial

open RingBufferWorkletProcessor in
/-- C3 (amended): the kernel-drain step of `process` is a single
conditional, not a loop: when `framesAvailable() ≥ K` it pulls K frames,
invokes the kernel exactly once, and pushes the K output frames back
into the same buffer, leaving `framesAvailable()` unchanged (in
particular not below K); when fewer than K frames are available the
kernel is not invoked.  At most one kernel block is processed per cycle. -/
theorem rb_drain_step_single (K : Nat)
    (kernel : (Nat → Nat → Int) → (Nat → Nat → Int)) (b : FreeQueue)
    (h : b.count ≤ b.capacity) :
    (drainStep K kernel b).kernelInvocations = (if K ≤ b.framesAvailable then 1 else 0) ∧
    (drainStep K kernel b).buffer.framesAvailable = b.framesAvailable := by
  obtain ⟨h1, _, h3, _, _⟩ := drainStep_spec K kernel b h
  exact ⟨h3, h1⟩

/-- Witness for C3 (amended): a capacity-4 mono buffer holding 4 frames,
kernel block size 4: one invocation, availability unchanged. -/
theorem rb_drain_step_single_witness :
    (((FreeQueue.new 4 1).push (fun _ _ => 1) 4).count
      ≤ ((FreeQueue.new 4 1).push (fun _ _ => 1) 4).capacity) ∧
    ((drainStep 4 (fun blk => blk) ((FreeQueue.new 4 1).push (fun _ _ => 1) 4)).kernelInvocations
      = (if 4 ≤ ((FreeQueue.new 4 1).push (fun _ _ => 1) 4).framesAvailable then 1 else 0) ∧
    (drainStep 4 (fun blk => blk) ((FreeQueue.new 4 1).push (fun _ _ => 1) 4)).buffer.framesAvailable
      = ((FreeQueue.new 4 1).push (fun _ _ => 1) 4).framesAvailable) :=
  ⟨by decide,
    rb_drain_step_single 4 (fun blk => blk)
      ((FreeQueue.new 4 1).push (fun _ _ => 1) 4) (by decide)⟩

/-- C3 counterexample: with 8 frames accumulated (two kernel blocks of
4) the code invokes the kernel once, not repeatedly, and after the drain
step 8 frames — not fewer than 4 — remain available. -/
theorem rb_drain_step_cex :
    (drainStep 4 (fun blk => blk)
        ((FreeQueue.new 8 1).push (fun _ _ => 1) 8)).kernelInvocations = 1 ∧
    ¬ ((drainStep 4 (fun blk => blk)
        ((FreeQueue.new 8 1).push (fun _ _ => 1) 8)).buffer.framesAvailable < 4) := by
  decide

open RingBufferWorkletProcessor in
/-- C4 (code evaluation at the failing input): with
`kernelBufferSize = 512`, the host-block push of line 116 pushes 512
frames — the kernel block size, not the 128-frame host cycle size — so
a fresh buffer holds 512 frames after it. -/
theorem rb_hostPush_eval :
    ((RingBufferWorkletProcessor.new 512 1).hostPush (fun _ _ => 1)).framesAvailable = 512 ∧
    ¬ (((RingBufferWorkletProcessor.new 512 1).hostPush (fun _ _ => 1)).framesAvailable = 128) := by
  decide

set_option maxRecDepth 8000 in
open RingBufferWorkletProcessor in
/-- C5 (code evaluation at the failing input): with
`kernelBufferSize = 512`, the final pull of line 145 fills the host
output block with 512 frames per channel, not the 128-frame host cycle
size. -/
theorem rb_output_block_eval :
    ((RingBufferWorkletProcessor.new 512 1).process (fun blk => blk)
        (fun _ _ => 1)).output.map List.length = [512] ∧
    ¬ (((RingBufferWorkletProcessor.new 512 1).process (fun blk => blk)
        (fun _ _ => 1)).output.map List.length = [128]) := by
  decide

set_option maxRecDepth 8000 in
open RingBufferWorkletProcessor in
/-- C6 (code evaluation at the failing input): in the H = 128, K = 512
scenario the code allocates a buffer of capacity 512 (less than the 640
the claim requires), and the first three cycles already invoke the
kernel three times (once per cycle) instead of zero times. -/
theorem rb_warmup_scenario_eval :
    (RingBufferWorkletProcessor.new 512 1).buffer.capacity = 512 ∧
    (runCycles (RingBufferWorkletProcessor.new 512 1) (fun blk => blk)
        (fun _ _ => 1) 3).2 = 3 := by
  decide

open RingBufferWorkletProcessor in
/-- C9: every `process` call pushes and pulls equal total frame counts
(the host push and final pull of `kernelBufferSize` frames each, plus a
balanced pull/push pair when the kernel branch runs), so when the host
push suffers no overflow clamping, the buffer holds the same number of
frames after the call as before it. -/
theorem rb_process_count_preserved (p : RingBufferWorkletProcessor)
    (kernel : (Nat → Nat → Int) → (Nat → Nat → Int)) (input : Nat → Nat → Int)
    (h : p.buffer.count + p.kernelBufferSize ≤ p.buffer.capacity) :
    (p.process kernel input).pushedFrameCounts.sum
      = (p.process kernel input).pulledFrameCounts.sum ∧
    (p.process kernel input).state.buffer.count = p.buffer.count := by
  have hb1c : (p.hostPush input).count = p.buffer.count + p.kernelBufferSize :=
    FreeQueue.push_count_le _ _ _ h
  have hb1cap : (p.hostPush input).capacity = p.buffer.capacity :=
    FreeQueue.push_capacity _ _ _
  have hble : (p.hostPush input).count ≤ (p.hostPush input).capacity := by
    rw [hb1c, hb1cap]; omega
  obtain ⟨hd1, hd2, hd3, hd4, hd5⟩ :=
    drainStep_spec p.kernelBufferSize kernel (p.hostPush input) hble
  have hge : p.kernelBufferSize ≤ (p.hostPush input).count := by
    rw [hb1c]; omega
  have hfin : ((drainStep p.kernelBufferSize kernel (p.hostPush input)).buffer.pull
      p.kernelBufferSize).1.count
      = (drainStep p.kernelBufferSize kernel (p.hostPush input)).buffer.count
        - p.kernelBufferSize :=
    FreeQueue.pull_count_le _ _ (by rw [hd1, hb1c]; omega)
  constructor
  · show (p.kernelBufferSize
        :: (drainStep p.kernelBufferSize kernel (p.hostPush input)).pushedFrameCounts).sum
      = ((drainStep p.kernelBufferSize kernel (p.hostPush input)).pulledFrameCounts
        ++ [p.kernelBufferSize]).sum
    rw [hd4, hd5, if_pos hge]
    simp [List.sum_cons, List.sum_append]
  · show ((drainStep p.kernelBufferSize kernel (p.hostPush input)).buffer.pull
        p.kernelBufferSize).1.count = p.buffer.count
    rw [hfin, hd1, hb1c]
    omega

open RingBufferWorkletProcessor in
/-- Witness for C9: a fresh processor with kernel block size 4, one
channel: the push/pull totals agree and the count (0) is preserved. -/
theorem rb_process_count_preserved_witness :
    ((RingBufferWorkletProcessor.new 4 1).buffer.count
        + (RingBufferWorkletProcessor.new 4 1).kernelBufferSize
      ≤ (RingBufferWorkletProcessor.new 4 1).buffer.capacity) ∧
    (((RingBufferWorkletProcessor.new 4 1).process (fun blk => blk)
          (fun _ _ => 2)).pushedFrameCounts.sum
      = ((RingBufferWorkletProcessor.new 4 1).process (fun blk => blk)
          (fun _ _ => 2)).pulledFrameCounts.sum ∧
    ((RingBufferWorkletProcessor.new 4 1).process (fun blk => blk)
        (fun _ _ => 2)).state.buffer.count
      = (RingBufferWorkletProcessor.new 4 1).buffer.count) :=
  ⟨by decide,
    rb_process_count_preserved (RingBufferWorkletProcessor.new 4 1)
      (fun blk => blk) (fun _ _ => 2) (by decide)⟩

/-- `NUM_FRAMES` (line 11): the Web Audio API render block size. -/
def NUM_FRAMES : Nat := 128

/-- The `SynthProcessor` state (lines 13–21): a mono scratch
`FreeQueue(NUM_FRAMES, 1)` whose channel data receives the rendered
frames.  The WASM `Synthesizer` itself is opaque and modelled by the
render function passed to `process`. -/
structure SynthProcessor where
  combinedBuffer : FreeQueue

namespace SynthProcessor

/-- Constructor (line 19): `new FreeQueue(NUM_FRAMES, 1)`. -/
def new : SynthProcessor := { combinedBuffer := FreeQueue.new NUM_FRAMES 1 }

/-- `process` (lines 23–34): render `NUM_FRAMES` frames into the scratch
buffer's channel data, copy that channel data to the host output buffer,
and return `true` (line 33). -/
def process (sp : SynthProcessor) (render : Nat → Int) :
    SynthProcessor × List Int × Bool :=
  let combined : FreeQueue :=
    { sp.combinedBuffer with
      data := fun ch i =>
        if ch = 0 ∧ i < NUM_FRAMES then render i else sp.combinedBuffer.data ch i }
  let outputBuffer := combined.getChannelData 0
  ({ combinedBuffer := combined }, outputBuffer, true)

end SynthProcessor

/-- A note-on or note-off command sent to the synthesizer. -/
inductive SynthAction where
  | noteOn (pitch : Nat)
  | noteOff (pitch : Nat)
deriving DecidableEq

/-- The MIDI pitch carried by a synthesizer command. -/
def SynthAction.pitch : SynthAction → Nat
  | SynthAction.noteOn p => p
  | SynthAction.noteOff p => p

/-- `_playTone` (lines 36–39): a truthy message payload triggers
`noteOn(60)`, a falsy one `noteOff(60)`.  Payload truthiness is the
boolean argument. -/
def SynthProcessor.playTone (isDown : Bool) : SynthAction :=
  if isDown then SynthAction.noteOn 60 else SynthAction.noteOff 60

/-- C8: both processors' `process` functions return `true` on every
invocation and every input — neither ever signals the host that the
processing path may be torn down. -/
theorem processors_always_return_true :
    ∀ (p : RingBufferWorkletProcessor)
      (kernel : (Nat → Nat → Int) → (Nat → Nat → Int))
      (input : Nat → Nat → Int) (sp : SynthProcessor) (render : Nat → Int),
      (p.process kernel input).keepAlive = true ∧
      (sp.process render).2.2 = true :=
  fun _ _ _ _ _ => ⟨rfl, rfl⟩

/-- C10: a truthy control message triggers `noteOn(60)`, a falsy one
`noteOff(60)`, and the note number passed to the synthesizer is 60
regardless of the message content. -/
theorem synth_playTone_note60 :
    SynthProcessor.playTone true = SynthAction.noteOn 60 ∧
    SynthProcessor.playTone false = SynthAction.noteOff 60 ∧
    ∀ isDown, (SynthProcessor.playTone isDown).pitch = 60 := by
  refine ⟨rfl, rfl, ?_⟩
  intro isDown
  cases isDown <;> rfl

end WebAudio
